import Mathlib

/-!
Verification of the spaced-repetition engine of `times-tables-web`
(`src/lib/spaced-rep.ts`) against its natural-language specification.

Modelling conventions:
* JavaScript numbers holding ease factors, intervals and timestamps are
  modelled as exact rationals (`ℚ`), the semantic domain the specification
  uses ("real number").  Counters are natural numbers.
* The `responseSecs` argument can, at the JSON boundary, be any JavaScript
  number including `NaN` and the infinities; it is modelled by `JsNum`,
  whose comparison operators against finite literals follow IEEE-754 /
  ECMAScript semantics (`NaN` compares false to everything, `-Infinity`
  is below every finite number, `+Infinity` above).
* `Date` values are modelled as rational millisecond timestamps.
* `Array.prototype.sort` is stable (ECMA-262, ES2019); with the comparator
  `(a, b) => a.easeFactor - b.easeFactor` its output is the unique
  permutation that is non-decreasing in `easeFactor` and keeps elements of
  equal `easeFactor` in input order.  `sortByEase` below computes exactly
  that list (lemmas `sortByEase_sorted` and `sortByEase_stable` certify
  sortedness and stability).
-/

namespace TimesTables

/-- `TABLE_ORDER` from `spaced-rep.ts`: the fixed pedagogical unlock order. -/
def TABLE_ORDER : List ℕ := [1, 10, 5, 11, 2, 3, 9, 4, 6, 7, 8, 12]

/-- The `Problem` interface: an ordered pair of factors. -/
structure Problem where
  a : ℕ
  b : ℕ
deriving DecidableEq

/-- A JavaScript number as it can arrive in `responseSecs`: a finite value
(modelled exactly as a rational), `NaN`, `+Infinity` or `-Infinity`. -/
inductive JsNum where
  | finite (q : ℚ)
  | nan
  | posInf
  | negInf
deriving DecidableEq

/-- JavaScript `x < c` for a finite literal `c`: `NaN` and `+Infinity`
compare false, `-Infinity` compares true. -/
def JsNum.ltLit : JsNum → ℚ → Bool
  | .finite q, c => decide (q < c)
  | .nan, _ => false
  | .posInf, _ => false
  | .negInf, _ => true

/-- JavaScript `x <= c` for a finite literal `c`. -/
def JsNum.leLit : JsNum → ℚ → Bool
  | .finite q, c => decide (q ≤ c)
  | .nan, _ => false
  | .posInf, _ => false
  | .negInf, _ => true

/-- JavaScript `c <= x` for a finite literal `c` (used by the spec-side
phrasing `3 ≤ response_seconds`). -/
def JsNum.geLit : JsNum → ℚ → Bool
  | .finite q, c => decide (c ≤ q)
  | .nan, _ => false
  | .posInf, _ => true
  | .negInf, _ => false

/-- The per-fact state updated by `calculateNewStats` (the stats fields of
`ProblemStats` / the prisma `problemProgress` row). -/
@[ext]
structure FactState where
  easeFactor : ℚ
  intervalDays : ℚ
  nextReview : ℚ
  timesCorrect : ℕ
  timesWrong : ℕ
  consecutiveCorrect : ℕ
deriving DecidableEq

/-- A progress-list entry as consumed by `shouldUnlockNextTable` and
`selectNextProblem` (the fields those functions read). -/
structure ProgressEntry where
  problemA : ℕ
  problemB : ℕ
  easeFactor : ℚ
  nextReview : ℚ
  consecutiveCorrect : ℕ
deriving DecidableEq

/-- `getUnlockedTableSet`: the first `unlockedTables` entries of
`TABLE_ORDER` (the JS `Set` is modelled by the list it is built from;
only membership is ever queried). -/
def getUnlockedTableSet (unlockedTables : ℕ) : List ℕ :=
  TABLE_ORDER.take unlockedTables

/-- `isProblemUnlocked`: both factors must belong to the unlocked set. -/
def isProblemUnlocked (a b unlockedTables : ℕ) : Bool :=
  (getUnlockedTableSet unlockedTables).contains a &&
    (getUnlockedTableSet unlockedTables).contains b

/-- `isMastered`: at least 3 consecutive correct answers and ease ≥ 2.0.
The TS function takes an object with these two fields; structurally it is
a function of the two values. -/
def isMastered (consecutiveCorrect : ℕ) (easeFactor : ℚ) : Bool :=
  decide (3 ≤ consecutiveCorrect) && decide (2 ≤ easeFactor)

/-- `calculateNewStats` from `spaced-rep.ts`, with the impure
`Date.now()` made an explicit `now` parameter (milliseconds). -/
def calculateNewStats (now : ℚ) (current : FactState) (correct : Bool)
    (responseSecs : JsNum) : FactState :=
  let s :=
    if correct then
      let intervalDays : ℚ :=
        if current.intervalDays = 0 then 1
        else if current.intervalDays < 1 then 1
        else current.intervalDays * current.easeFactor
      let easeBonus : ℚ :=
        if responseSecs.ltLit 3 then 0.15
        else if responseSecs.leLit 8 then 0.1
        else 0.05
      { current with
          timesCorrect := current.timesCorrect + 1
          consecutiveCorrect := current.consecutiveCorrect + 1
          intervalDays := intervalDays
          easeFactor := min 3.0 (current.easeFactor + easeBonus) }
    else
      { current with
          timesWrong := current.timesWrong + 1
          consecutiveCorrect := 0
          intervalDays := 0
          easeFactor := max 1.3 (current.easeFactor - 0.2) }
  { s with nextReview := now + s.intervalDays * 86400 * 1000 }

/-- The filter of `shouldUnlockNextTable`: progress entries whose problem
is unlocked. -/
def unlockedProgress (progressList : List ProgressEntry)
    (unlockedTables : ℕ) : List ProgressEntry :=
  progressList.filter
    (fun p => isProblemUnlocked p.problemA p.problemB unlockedTables)

/-- `shouldUnlockNextTable`: the `(length * 3) / 4` of the source is
rational division, so the comparison is over `ℚ`. -/
def shouldUnlockNextTable (progressList : List ProgressEntry)
    (unlockedTables : ℕ) : Bool :=
  if TABLE_ORDER.length ≤ unlockedTables then false
  else
    let unlockedProblems := unlockedProgress progressList unlockedTables
    if unlockedProblems.length = 0 then false
    else
      let masteredCount :=
        (unlockedProblems.filter
          (fun p => isMastered p.consecutiveCorrect p.easeFactor)).length
      decide (((unlockedProblems.length : ℚ) * 3) / 4 ≤ (masteredCount : ℚ))

/-- The `lastProblem && p.problemA === lastProblem.a && ...` test of
`selectNextProblem` (false when `lastProblem` is absent). -/
def matchesLast (lastProblem : Option Problem) (p : ProgressEntry) : Bool :=
  match lastProblem with
  | some lp => p.problemA == lp.a && p.problemB == lp.b
  | none => false

/-- First filter of `selectNextProblem`: unlocked, due, not the previous
problem. -/
def dueCandidates (progressList : List ProgressEntry) (unlockedTables : ℕ)
    (lastProblem : Option Problem) (now : ℚ) : List ProgressEntry :=
  progressList.filter
    (fun p =>
      isProblemUnlocked p.problemA p.problemB unlockedTables &&
        decide (p.nextReview ≤ now) && !(matchesLast lastProblem p))

/-- Fallback filter of `selectNextProblem`: unlocked, not the previous
problem, due date ignored. -/
def fallbackCandidates (progressList : List ProgressEntry)
    (unlockedTables : ℕ) (lastProblem : Option Problem) :
    List ProgressEntry :=
  progressList.filter
    (fun p =>
      isProblemUnlocked p.problemA p.problemB unlockedTables &&
        !(matchesLast lastProblem p))

/-- The candidate list `selectNextProblem` ends up sorting: the due
candidates, or on emptiness the fallback candidates. -/
def selectCandidates (progressList : List ProgressEntry)
    (unlockedTables : ℕ) (lastProblem : Option Problem) (now : ℚ) :
    List ProgressEntry :=
  if (dueCandidates progressList unlockedTables lastProblem now).length = 0
  then fallbackCandidates progressList unlockedTables lastProblem
  else dueCandidates progressList unlockedTables lastProblem now

/-- Stable insertion by `easeFactor`: the element moves past strictly
smaller keys only, so among equal keys earlier input stays first. -/
def insertByEase (x : ProgressEntry) :
    List ProgressEntry → List ProgressEntry
  | [] => [x]
  | y :: ys =>
    if y.easeFactor < x.easeFactor then y :: insertByEase x ys
    else x :: y :: ys

/-- The stable ascending sort by `easeFactor` performed by
`candidates.sort((a, b) => a.easeFactor - b.easeFactor)`. -/
def sortByEase : List ProgressEntry → List ProgressEntry
  | [] => []
  | x :: xs => insertByEase x (sortByEase xs)

/-- `selectNextProblem` from `spaced-rep.ts` (`new Date()` made the
explicit `now` parameter): filter, fallback, sort, take the head. -/
def selectNextProblem (progressList : List ProgressEntry)
    (unlockedTables : ℕ) (lastProblem : Option Problem) (now : ℚ) :
    Option Problem :=
  let candidates := selectCandidates progressList unlockedTables lastProblem now
  if candidates.length = 0 then none
  else (sortByEase candidates).head?.map
    (fun c => { a := c.problemA, b := c.problemB })

/-- The initial `FactState` of the data model: ease 2.5, interval 0,
immediately due, all counters 0 (`nextReview` normalised to 0). -/
def initialFactState : FactState :=
  { easeFactor := 2.5, intervalDays := 0, nextReview := 0,
    timesCorrect := 0, timesWrong := 0, consecutiveCorrect := 0 }

/-- A sample progress entry for the fact 1 × 1, used in concrete
witnesses. -/
def sampleEntry : ProgressEntry :=
  { problemA := 1, problemB := 1, easeFactor := 2, nextReview := 0,
    consecutiveCorrect := 0 }

/-- Folding a finite answer history `(now, correct, responseSecs)` through
`calculateNewStats`. -/
def applyAnswers (start : FactState) :
    List (ℚ × Bool × JsNum) → FactState
  | [] => start
  | (now, correct, t) :: rest =>
    applyAnswers (calculateNewStats now start correct t) rest

/-- The §4.4 reference Update Rule, written from the specification's own
words (correct: interval below 1 becomes 1, otherwise it is multiplied by
the pre-update ease factor; latency bonus 0.15 below 3 s, 0.10 for
3 ≤ t ≤ 8, else 0.05, ease capped at 3.0; incorrect: counters and floor as
stated).  Used as the comparison point of the refinement claim C3. -/
def applyAnswerSpec (now : ℚ) (current : FactState) (correct : Bool)
    (responseSecs : JsNum) : FactState :=
  if correct then
    let bonus : ℚ :=
      if responseSecs.ltLit 3 then 0.15
      else if responseSecs.geLit 3 && responseSecs.leLit 8 then 0.1
      else 0.05
    let newInterval : ℚ :=
      if current.intervalDays < 1 then 1
      else current.intervalDays * current.easeFactor
    { current with
        timesCorrect := current.timesCorrect + 1
        consecutiveCorrect := current.consecutiveCorrect + 1
        intervalDays := newInterval
        easeFactor := min 3.0 (current.easeFactor + bonus)
        nextReview := now + newInterval * 86400 * 1000 }
  else
    { current with
        timesWrong := current.timesWrong + 1
        consecutiveCorrect := 0
        intervalDays := 0
        easeFactor := max 1.3 (current.easeFactor - 0.2)
        nextReview := now + 0 * 86400 * 1000 }

/-- The first entry of a list attaining the minimal `easeFactor` (the
element a stable ascending sort by `easeFactor` puts first).  Spec-side
description used to state what the tie-break of `selectNextProblem`
actually is. -/
def firstMinByEase : List ProgressEntry → Option ProgressEntry
  | [] => none
  | x :: xs =>
    match firstMinByEase xs with
    | none => some x
    | some m => if m.easeFactor < x.easeFactor then some m else some x

/-- Membership characterisation of `isProblemUnlocked`: both factors lie in
the first `unlockedTables` entries of `TABLE_ORDER`. -/
theorem isProblemUnlocked_eq_true_iff (a b k : ℕ) :
    isProblemUnlocked a b k = true ↔
      a ∈ TABLE_ORDER.take k ∧ b ∈ TABLE_ORDER.take k := by
  simp [isProblemUnlocked, getUnlockedTableSet]

/-- Taking more of a list keeps every earlier member. -/
theorem mem_take_mono {α : Type} {a : α} {l : List α} {k k' : ℕ}
    (hk : k ≤ k') (ha : a ∈ l.take k) : a ∈ l.take k' := by
  have h : (l.take k').take k = l.take k := by
    rw [List.take_take, Nat.min_eq_left hk]
  exact List.take_subset k (l.take k') (h ▸ ha)

/-- Claim C6: `isProblemUnlocked a b k` holds exactly when both `a` and
`b` belong to the set of the first `k` entries of
`TABLE_ORDER = [1,10,5,11,2,3,9,4,6,7,8,12]`; with `k = 2` the problems
(1,10) and (10,1) are unlocked while (1,2) is not. -/
theorem c6_isProblemUnlocked_spec :
    (∀ a b k : ℕ, isProblemUnlocked a b k = true ↔
      a ∈ TABLE_ORDER.take k ∧ b ∈ TABLE_ORDER.take k) ∧
    isProblemUnlocked 1 10 2 = true ∧
    isProblemUnlocked 10 1 2 = true ∧
    isProblemUnlocked 1 2 2 = false :=
  ⟨isProblemUnlocked_eq_true_iff, by decide, by decide, by decide⟩

/-- Claim C7: `isMastered` holds exactly when `consecutiveCorrect ≥ 3` and
`easeFactor ≥ 2.0`, and any wrong answer produces a state that is not
mastered. -/
theorem c7_isMastered_spec :
    (∀ s : FactState,
      isMastered s.consecutiveCorrect s.easeFactor = true ↔
        3 ≤ s.consecutiveCorrect ∧ 2 ≤ s.easeFactor) ∧
    (∀ (now : ℚ) (s : FactState) (t : JsNum),
      isMastered (calculateNewStats now s false t).consecutiveCorrect
        (calculateNewStats now s false t).easeFactor = false) := by
  constructor
  · intro s
    simp [isMastered]
  · intro now s t
    simp [isMastered, calculateNewStats]

/-- Claim C9: `isProblemUnlocked` is monotone in the unlocked-table count:
a problem unlocked at count `k` stays unlocked at every count `k' ≥ k`. -/
theorem c9_isProblemUnlocked_monotone (a b k k' : ℕ) (hk : k ≤ k')
    (h : isProblemUnlocked a b k = true) :
    isProblemUnlocked a b k' = true := by
  rw [isProblemUnlocked_eq_true_iff] at h ⊢
  exact ⟨mem_take_mono hk h.1, mem_take_mono hk h.2⟩

/-- Witness for C9 at the concrete instance a = b = 1, k = 1, k' = 2. -/
theorem c9_isProblemUnlocked_monotone_witness :
    1 ≤ 2 ∧ isProblemUnlocked 1 1 1 = true ∧
      isProblemUnlocked 1 1 2 = true :=
  ⟨by decide, by decide,
    c9_isProblemUnlocked_monotone 1 1 1 2 (by decide) (by decide)⟩

/-- The latency bonus of the source and the `<, ≤ ≤, else` phrasing of the
spec agree on every JavaScript number. -/
theorem easeBonus_eq (t : JsNum) :
    (if t.ltLit 3 then (0.15 : ℚ) else if t.leLit 8 then 0.1 else 0.05) =
      (if t.ltLit 3 then (0.15 : ℚ)
       else if t.geLit 3 && t.leLit 8 then 0.1 else 0.05) := by
  cases t with
  | finite q =>
    simp only [JsNum.ltLit, JsNum.leLit, JsNum.geLit]
    by_cases h3 : q < 3
    · simp [h3]
    · simp [h3, le_of_not_lt h3]
  | nan => rfl
  | posInf => rfl
  | negInf => rfl

/-- Claim C3, part 1: `calculateNewStats` coincides with the §4.4
reference rule `applyAnswerSpec` on every input. -/
theorem calculateNewStats_eq_spec (now : ℚ) (current : FactState)
    (correct : Bool) (t : JsNum) :
    calculateNewStats now current correct t =
      applyAnswerSpec now current correct t := by
  cases correct with
  | false => simp [calculateNewStats, applyAnswerSpec]
  | true =>
    simp only [calculateNewStats, applyAnswerSpec, ← easeBonus_eq t]
    by_cases h0 : current.intervalDays = 0
    · simp [h0]
    · by_cases h1 : current.intervalDays < 1
      · simp [h0, h1]
      · simp [h0, h1]

/-- Claim C3: `calculateNewStats` equals the §4.4 reference update rule on
every input; in particular, from ease 2.5 and interval 5 a correct answer
in 10 s yields interval 12.5 and ease 2.55, and from ease 1.4 a wrong
answer yields ease 1.3, interval 0 and consecutive-correct 0. -/
theorem c3_calculateNewStats_matches_update_rule :
    (∀ (now : ℚ) (current : FactState) (correct : Bool) (t : JsNum),
      calculateNewStats now current correct t =
        applyAnswerSpec now current correct t) ∧
    (calculateNewStats 0
        { easeFactor := 2.5, intervalDays := 5, nextReview := 0,
          timesCorrect := 0, timesWrong := 0, consecutiveCorrect := 0 }
        true (JsNum.finite 10)).intervalDays = 12.5 ∧
    (calculateNewStats 0
        { easeFactor := 2.5, intervalDays := 5, nextReview := 0,
          timesCorrect := 0, timesWrong := 0, consecutiveCorrect := 0 }
        true (JsNum.finite 10)).easeFactor = 2.55 ∧
    (calculateNewStats 0
        { easeFactor := 1.4, intervalDays := 5, nextReview := 0,
          timesCorrect := 0, timesWrong := 0, consecutiveCorrect := 2 }
        false (JsNum.finite 5)).easeFactor = 1.3 ∧
    (calculateNewStats 0
        { easeFactor := 1.4, intervalDays := 5, nextReview := 0,
          timesCorrect := 0, timesWrong := 0, consecutiveCorrect := 2 }
        false (JsNum.finite 5)).intervalDays = 0 ∧
    (calculateNewStats 0
        { easeFactor := 1.4, intervalDays := 5, nextReview := 0,
          timesCorrect := 0, timesWrong := 0, consecutiveCorrect := 2 }
        false (JsNum.finite 5)).consecutiveCorrect = 0 := by
  refine ⟨calculateNewStats_eq_spec, ?_, ?_, ?_, ?_, ?_⟩ <;>
    norm_num [calculateNewStats, JsNum.ltLit, JsNum.leLit]

/-- A single update keeps the ease factor in [1.3, 3.0] and the interval
non-negative. -/
theorem calculateNewStats_preserves_invariant (now : ℚ) (s : FactState)
    (c : Bool) (t : JsNum)
    (h1 : 1.3 ≤ s.easeFactor) (h2 : s.easeFactor ≤ 3)
    (h3 : 0 ≤ s.intervalDays) :
    1.3 ≤ (calculateNewStats now s c t).easeFactor ∧
      (calculateNewStats now s c t).easeFactor ≤ 3 ∧
      0 ≤ (calculateNewStats now s c t).intervalDays := by
  cases c with
  | false =>
    simp only [calculateNewStats, if_true, if_false, Bool.false_eq_true,
      ite_false, ite_true]
    refine ⟨le_max_left _ _, max_le (by norm_num) (by linarith), le_refl 0⟩
  | true =>
    simp only [calculateNewStats, if_true, if_false, ite_true]
    have hbonus : (0 : ℚ) ≤
        (if t.ltLit 3 then (0.15 : ℚ) else if t.leLit 8 then 0.1 else 0.05) := by
      split_ifs <;> norm_num
    refine ⟨le_min (by norm_num) (by linarith),
      le_trans (min_le_left _ _) (by norm_num), ?_⟩
    by_cases h0 : s.intervalDays = 0
    · simp [h0]
    · by_cases hlt : s.intervalDays < 1
      · simp [h0, hlt]
      · simp only [h0, hlt, if_false]
        exact mul_nonneg h3 (by linarith)

/-- Every state reached from an invariant-satisfying start state satisfies
the invariant. -/
theorem applyAnswers_preserves_invariant (answers : List (ℚ × Bool × JsNum)) :
    ∀ s : FactState, 1.3 ≤ s.easeFactor → s.easeFactor ≤ 3 →
      0 ≤ s.intervalDays →
      1.3 ≤ (applyAnswers s answers).easeFactor ∧
        (applyAnswers s answers).easeFactor ≤ 3 ∧
        0 ≤ (applyAnswers s answers).intervalDays := by
  induction answers with
  | nil => exact fun s h1 h2 h3 => ⟨h1, h2, h3⟩
  | cons step rest ih =>
    intro s h1 h2 h3
    obtain ⟨now, c, t⟩ := step
    obtain ⟨g1, g2, g3⟩ :=
      calculateNewStats_preserves_invariant now s c t h1 h2 h3
    exact ih (calculateNewStats now s c t) g1 g2 g3

/-- `applyAnswers` splits over list concatenation. -/
theorem applyAnswers_append (l1 l2 : List (ℚ × Bool × JsNum)) :
    ∀ s : FactState, applyAnswers s (l1 ++ l2) =
      applyAnswers (applyAnswers s l1) l2 := by
  induction l1 with
  | nil => intro s; rfl
  | cons step rest ih =>
    intro s
    obtain ⟨now, c, t⟩ := step
    simp only [List.cons_append, applyAnswers]
    exact ih (calculateNewStats now s c t)

/-- Claim C4: every state reachable from the initial state (ease 2.5,
interval 0, counters 0) by a finite sequence of `calculateNewStats` calls
has ease factor in [1.3, 3.0] and a non-negative interval, and its
consecutive-correct counter is 0 whenever the last answer was wrong. -/
theorem c4_reachable_state_invariant (answers : List (ℚ × Bool × JsNum)) :
    1.3 ≤ (applyAnswers initialFactState answers).easeFactor ∧
    (applyAnswers initialFactState answers).easeFactor ≤ 3 ∧
    0 ≤ (applyAnswers initialFactState answers).intervalDays ∧
    ∀ (pre : List (ℚ × Bool × JsNum)) (now : ℚ) (t : JsNum),
      answers = pre ++ [(now, false, t)] →
      (applyAnswers initialFactState answers).consecutiveCorrect = 0 := by
  obtain ⟨h1, h2, h3⟩ :=
    applyAnswers_preserves_invariant answers initialFactState
      (by norm_num [initialFactState]) (by norm_num [initialFactState])
      (by norm_num [initialFactState])
  refine ⟨h1, h2, h3, ?_⟩
  intro pre now t hEq
  rw [hEq, applyAnswers_append]
  simp [applyAnswers, calculateNewStats]

/-- Witness for C4 at the one-step history of a single wrong answer. -/
theorem c4_reachable_state_invariant_witness :
    1.3 ≤ (applyAnswers initialFactState
        [(0, false, JsNum.finite 1)]).easeFactor ∧
    (applyAnswers initialFactState
        [(0, false, JsNum.finite 1)]).consecutiveCorrect = 0 :=
  ⟨(c4_reachable_state_invariant [(0, false, JsNum.finite 1)]).1,
   (c4_reachable_state_invariant [(0, false, JsNum.finite 1)]).2.2.2
      [] 0 (JsNum.finite 1) rfl⟩

/-- Claim C5: `shouldUnlockNextTable` returns false when 12 or more tables
are already unlocked or no progress entry is unlocked; otherwise it
returns true exactly when the mastered fraction of the unlocked entries is
at least 3/4. -/
theorem c5_shouldUnlockNextTable_spec (pl : List ProgressEntry) (ut : ℕ) :
    (12 ≤ ut → shouldUnlockNextTable pl ut = false) ∧
    (unlockedProgress pl ut = [] → shouldUnlockNextTable pl ut = false) ∧
    (ut < 12 → unlockedProgress pl ut ≠ [] →
      (shouldUnlockNextTable pl ut = true ↔
        (3 : ℚ) / 4 ≤
          (((unlockedProgress pl ut).filter
              (fun p => isMastered p.consecutiveCorrect p.easeFactor)).length : ℚ) /
            ((unlockedProgress pl ut).length : ℚ))) := by
  have hlen : TABLE_ORDER.length = 12 := rfl
  refine ⟨?_, ?_, ?_⟩
  · intro h
    simp [shouldUnlockNextTable, hlen, h]
  · intro h
    by_cases hut : 12 ≤ ut
    · simp [shouldUnlockNextTable, hlen, hut]
    · simp [shouldUnlockNextTable, hlen, hut, h]
  · intro hut hne
    have hnle : ¬ (12 ≤ ut) := by omega
    have hn0 : (unlockedProgress pl ut).length ≠ 0 := by
      simpa [List.length_eq_zero] using hne
    have hnpos : (0 : ℚ) < ((unlockedProgress pl ut).length : ℚ) := by
      exact_mod_cast Nat.pos_of_ne_zero hn0
    simp only [shouldUnlockNextTable, hlen, hnle, if_false, hn0,
      decide_eq_true_eq, ite_false]
    rw [div_le_div_iff₀ (by norm_num) hnpos,
      div_le_iff₀ (by norm_num : (0:ℚ) < 4)]
    constructor <;> intro h <;> linarith

/-- Witness for C5 at the saturated unlock count 12. -/
theorem c5_shouldUnlockNextTable_spec_witness :
    12 ≤ 12 ∧ shouldUnlockNextTable [] 12 = false :=
  ⟨le_refl 12, (c5_shouldUnlockNextTable_spec [] 12).1 (le_refl 12)⟩

/-- The head of the stable sort is the first entry attaining the minimal
ease factor. -/
theorem head_sortByEase (l : List ProgressEntry) :
    (sortByEase l).head? = firstMinByEase l := by
  induction l with
  | nil => rfl
  | cons x xs ih =>
    simp only [sortByEase, firstMinByEase, ← ih]
    cases hs : sortByEase xs with
    | nil => rfl
    | cons y ys =>
      simp only [insertByEase, List.head?_cons]
      by_cases h : y.easeFactor < x.easeFactor
      · simp [h]
      · simp [h]

/-- `firstMinByEase` never returns `none` on a non-empty list. -/
theorem firstMinByEase_isSome {l : List ProgressEntry} (h : l ≠ []) :
    ∃ m, firstMinByEase l = some m := by
  cases l with
  | nil => exact absurd rfl h
  | cons x xs =>
    cases hx : firstMinByEase xs with
    | none => exact ⟨x, by simp [firstMinByEase, hx]⟩
    | some m =>
      by_cases hc : m.easeFactor < x.easeFactor
      · exact ⟨m, by simp [firstMinByEase, hx, hc]⟩
      · exact ⟨x, by simp [firstMinByEase, hx, hc]⟩

/-- The entry `firstMinByEase` returns belongs to the list. -/
theorem firstMinByEase_mem :
    ∀ {l : List ProgressEntry} {m : ProgressEntry},
      firstMinByEase l = some m → m ∈ l := by
  intro l
  induction l with
  | nil => intro m h; cases h
  | cons x xs ih =>
    intro m h
    simp only [firstMinByEase] at h
    cases hx : firstMinByEase xs with
    | none =>
      rw [hx] at h
      cases h
      exact List.mem_cons_self x xs
    | some m' =>
      rw [hx] at h
      by_cases hc : m'.easeFactor < x.easeFactor
      · simp only [hc, ite_true] at h
        cases h
        exact List.mem_cons_of_mem x (ih hx)
      · simp only [hc, ite_false] at h
        cases h
        exact List.mem_cons_self x xs

/-- The entry `firstMinByEase` returns has the minimal ease factor. -/
theorem firstMinByEase_min :
    ∀ {l : List ProgressEntry} {m : ProgressEntry},
      firstMinByEase l = some m →
      ∀ x ∈ l, m.easeFactor ≤ x.easeFactor := by
  intro l
  induction l with
  | nil => intro m h; cases h
  | cons x xs ih =>
    intro m h y hy
    simp only [firstMinByEase] at h
    cases hx : firstMinByEase xs with
    | none =>
      rw [hx] at h
      cases h
      cases hy with
      | head => exact le_refl _
      | tail _ hmem =>
        cases xs with
        | nil => cases hmem
        | cons z zs =>
          exfalso
          obtain ⟨m', hm'⟩ := firstMinByEase_isSome
            (List.cons_ne_nil z zs)
          rw [hm'] at hx
          cases hx
    | some m' =>
      rw [hx] at h
      by_cases hc : m'.easeFactor < x.easeFactor
      · simp only [hc, ite_true] at h
        cases h
        cases hy with
        | head => exact le_of_lt hc
        | tail _ hmem => exact ih hx y hmem
      · simp only [hc, ite_false] at h
        cases h
        cases hy with
        | head => exact le_refl _
        | tail _ hmem =>
          exact le_trans (le_of_not_lt hc) (ih hx y hmem)

/-- `selectNextProblem` computed through `firstMinByEase`: the head of the
stable sort is the first candidate of minimal ease factor. -/
theorem selectNextProblem_eq_firstMin (pl : List ProgressEntry) (ut : ℕ)
    (lp : Option Problem) (now : ℚ) :
    selectNextProblem pl ut lp now =
      (firstMinByEase (selectCandidates pl ut lp now)).map
        (fun c => { a := c.problemA, b := c.problemB }) := by
  simp only [selectNextProblem, head_sortByEase]
  by_cases h : (selectCandidates pl ut lp now).length = 0
  · have hnil : selectCandidates pl ut lp now = [] :=
      List.length_eq_zero.mp h
    simp [h, hnil, firstMinByEase]
  · simp [h]

/-- Counterexample to claim C2: two due unlocked candidates share the
minimal ease factor 2.5; the code returns the one listed first, (10,1),
not the lexicographically smaller (1,1), and swapping the input order
changes the result. -/
theorem c2_counterexample :
    selectNextProblem
      [{ problemA := 10, problemB := 1, easeFactor := 2.5, nextReview := 0,
         consecutiveCorrect := 0 },
       { problemA := 1, problemB := 1, easeFactor := 2.5, nextReview := 0,
         consecutiveCorrect := 0 }] 2 none 0 = some { a := 10, b := 1 } ∧
    selectNextProblem
      [{ problemA := 10, problemB := 1, easeFactor := 2.5, nextReview := 0,
         consecutiveCorrect := 0 },
       { problemA := 1, problemB := 1, easeFactor := 2.5, nextReview := 0,
         consecutiveCorrect := 0 }] 2 none 0 ≠ some { a := 1, b := 1 } ∧
    selectNextProblem
      [{ problemA := 1, problemB := 1, easeFactor := 2.5, nextReview := 0,
         consecutiveCorrect := 0 },
       { problemA := 10, problemB := 1, easeFactor := 2.5, nextReview := 0,
         consecutiveCorrect := 0 }] 2 none 0 = some { a := 1, b := 1 } := by
  refine ⟨?_, ?_, ?_⟩ <;>
    norm_num [selectNextProblem, selectCandidates, dueCandidates,
      fallbackCandidates, matchesLast, isProblemUnlocked,
      getUnlockedTableSet, TABLE_ORDER, sortByEase, insertByEase,
      List.filter, Problem.mk.injEq]

/-- Claim C2 (amended): `selectNextProblem` returns the problem of the
first candidate, in input order, attaining the minimal ease factor —
`firstMinByEase` picks a member of the candidate list of minimal ease
factor, so ease-factor ties are broken by input order, not by the
lexicographic order of (a, b). -/
theorem c2_selectNextProblem_input_order_tiebreak :
    (∀ (pl : List ProgressEntry) (ut : ℕ) (lp : Option Problem) (now : ℚ),
      selectNextProblem pl ut lp now =
        (firstMinByEase (selectCandidates pl ut lp now)).map
          (fun c => { a := c.problemA, b := c.problemB })) ∧
    (∀ (l : List ProgressEntry) (m : ProgressEntry),
      firstMinByEase l = some m →
        m ∈ l ∧ ∀ x ∈ l, m.easeFactor ≤ x.easeFactor) :=
  ⟨selectNextProblem_eq_firstMin,
   fun _ _ h => ⟨firstMinByEase_mem h, firstMinByEase_min h⟩⟩

/-- Witness for C2 (amended) at a one-element candidate list. -/
theorem c2_selectNextProblem_input_order_tiebreak_witness :
    sampleEntry ∈ [sampleEntry] ∧
    ∀ x ∈ [sampleEntry], sampleEntry.easeFactor ≤ x.easeFactor :=
  c2_selectNextProblem_input_order_tiebreak.2 [sampleEntry] sampleEntry rfl

/-- Claim C8: `selectNextProblem` picks from the due candidates when any
exist, falls back to the unlocked non-repeat candidates when none are due,
and returns `none` when both sets are empty — in particular when every
unlocked entry is the previous problem. -/
theorem c8_selectNextProblem_fallback (pl : List ProgressEntry) (ut : ℕ)
    (lp : Option Problem) (now : ℚ) :
    (dueCandidates pl ut lp now ≠ [] →
      ∃ c ∈ dueCandidates pl ut lp now,
        selectNextProblem pl ut lp now =
          some { a := c.problemA, b := c.problemB }) ∧
    (dueCandidates pl ut lp now = [] →
      fallbackCandidates pl ut lp ≠ [] →
      ∃ c ∈ fallbackCandidates pl ut lp,
        selectNextProblem pl ut lp now =
          some { a := c.problemA, b := c.problemB }) ∧
    (dueCandidates pl ut lp now = [] →
      fallbackCandidates pl ut lp = [] →
      selectNextProblem pl ut lp now = none) ∧
    ((∀ p ∈ pl, isProblemUnlocked p.problemA p.problemB ut = true →
        matchesLast lp p = true) →
      selectNextProblem pl ut lp now = none) := by
  have hsel := selectNextProblem_eq_firstMin pl ut lp now
  refine ⟨?_, ?_, ?_, ?_⟩
  · intro hdue
    have hcand : selectCandidates pl ut lp now = dueCandidates pl ut lp now := by
      simp only [selectCandidates]
      rw [if_neg (by simpa [List.length_eq_zero] using hdue)]
    obtain ⟨m, hm⟩ := firstMinByEase_isSome (l := dueCandidates pl ut lp now) hdue
    refine ⟨m, firstMinByEase_mem hm, ?_⟩
    rw [hsel, hcand, hm]
    rfl
  · intro hdue hfb
    have hcand : selectCandidates pl ut lp now = fallbackCandidates pl ut lp := by
      simp only [selectCandidates]
      rw [if_pos (by simp [hdue])]
    obtain ⟨m, hm⟩ := firstMinByEase_isSome (l := fallbackCandidates pl ut lp) hfb
    refine ⟨m, firstMinByEase_mem hm, ?_⟩
    rw [hsel, hcand, hm]
    rfl
  · intro hdue hfb
    have hcand : selectCandidates pl ut lp now = fallbackCandidates pl ut lp := by
      simp only [selectCandidates]
      rw [if_pos (by simp [hdue])]
    rw [hsel, hcand, hfb]
    rfl
  · intro hall
    have hfb : fallbackCandidates pl ut lp = [] := by
      simp only [fallbackCandidates]
      rw [List.filter_eq_nil_iff]
      intro p hp
      by_cases hu : isProblemUnlocked p.problemA p.problemB ut = true
      · simp [hu, hall p hp hu]
      · simp [Bool.eq_false_iff.mpr hu]
    have hdue : dueCandidates pl ut lp now = [] := by
      simp only [dueCandidates]
      rw [List.filter_eq_nil_iff]
      intro p hp
      by_cases hu : isProblemUnlocked p.problemA p.problemB ut = true
      · simp [hu, hall p hp hu]
      · simp [Bool.eq_false_iff.mpr hu]
    have hcand : selectCandidates pl ut lp now = fallbackCandidates pl ut lp := by
      simp only [selectCandidates]
      rw [if_pos (by simp [hdue])]
    rw [hsel, hcand, hfb]
    rfl

/-- Witness for C8: a single unlocked entry equal to the previous problem
yields no next problem. -/
theorem c8_selectNextProblem_fallback_witness :
    selectNextProblem [sampleEntry] 1 (some { a := 1, b := 1 }) 0 = none :=
  (c8_selectNextProblem_fallback [sampleEntry] 1
      (some { a := 1, b := 1 }) 0).2.2.2 (by decide)

/-- Claim C1 evaluated on the code: the engine performs no validation of
`responseSecs` — `calculateNewStats` is a total function and, called with
the negative latency −1 s (and likewise with `NaN`), it produces a new
`FactState` instead of rejecting the input; −1 s is classified as a fast
answer (+0.15 ease bonus). -/
theorem c1_no_validation_of_response_seconds :
    calculateNewStats 0 initialFactState true (JsNum.finite (-1)) =
      { easeFactor := 2.65, intervalDays := 1, nextReview := 86400000,
        timesCorrect := 1, timesWrong := 0, consecutiveCorrect := 1 } ∧
    calculateNewStats 0 initialFactState true JsNum.nan =
      { easeFactor := 2.55, intervalDays := 1, nextReview := 86400000,
        timesCorrect := 1, timesWrong := 0, consecutiveCorrect := 1 } := by
  constructor <;>
    · ext <;>
        norm_num [calculateNewStats, initialFactState, JsNum.ltLit,
          JsNum.leLit]

/-- Counterexample to claim C10: `-Infinity` is an infinite
`response_seconds`, yet the code classifies it as a fast answer and grants
the +0.15 bonus (ease 2.65 from 2.5), not the claimed slow-answer +0.05
(which would give 2.55). -/
theorem c10_counterexample :
    (calculateNewStats 0 initialFactState true JsNum.negInf).easeFactor =
      2.65 ∧
    (calculateNewStats 0 initialFactState true JsNum.negInf).easeFactor ≠
      2.55 := by
  norm_num [calculateNewStats, initialFactState, JsNum.ltLit]

/-- Claim C10 (amended): `calculateNewStats` is total and the latency
comparisons decide the bonus for out-of-domain inputs: every negative
finite `responseSecs` and `-Infinity` get the fast-answer bonus +0.15,
while `NaN` and `+Infinity` get the slow-answer bonus +0.05. -/
theorem c10_out_of_domain_bonus (now : ℚ) (s : FactState) :
    (∀ q : ℚ, q < 0 →
      (calculateNewStats now s true (JsNum.finite q)).easeFactor =
        min 3.0 (s.easeFactor + 0.15)) ∧
    (calculateNewStats now s true JsNum.negInf).easeFactor =
      min 3.0 (s.easeFactor + 0.15) ∧
    (calculateNewStats now s true JsNum.nan).easeFactor =
      min 3.0 (s.easeFactor + 0.05) ∧
    (calculateNewStats now s true JsNum.posInf).easeFactor =
      min 3.0 (s.easeFactor + 0.05) := by
  refine ⟨?_, ?_, ?_, ?_⟩
  · intro q hq
    have h3 : q < 3 := by linarith
    simp [calculateNewStats, JsNum.ltLit, h3]
  · simp [calculateNewStats, JsNum.ltLit]
  · simp [calculateNewStats, JsNum.ltLit, JsNum.leLit]
  · simp [calculateNewStats, JsNum.ltLit, JsNum.leLit]

/-- Witness for C10 (amended) at `responseSecs = -1` on the initial
state. -/
theorem c10_out_of_domain_bonus_witness :
    (-1 : ℚ) < 0 ∧
    (calculateNewStats 0 initialFactState true
        (JsNum.finite (-1))).easeFactor =
      min 3.0 (initialFactState.easeFactor + 0.15) :=
  ⟨by decide, (c10_out_of_domain_bonus 0 initialFactState).1 (-1) (by decide)⟩

/-- Inserting produces a permutation of consing. -/
theorem insertByEase_perm (x : ProgressEntry) (l : List ProgressEntry) :
    (insertByEase x l).Perm (x :: l) := by
  induction l with
  | nil => exact List.Perm.refl _
  | cons y ys ih =>
    simp only [insertByEase]
    by_cases h : y.easeFactor < x.easeFactor
    · rw [if_pos h]
      exact ((ih.cons y).trans (List.Perm.swap x y ys))
    · rw [if_neg h]

/-- `sortByEase` permutes its input. -/
theorem sortByEase_perm (l : List ProgressEntry) :
    (sortByEase l).Perm l := by
  induction l with
  | nil => exact List.Perm.refl _
  | cons x xs ih =>
    exact (insertByEase_perm x (sortByEase xs)).trans (ih.cons x)

/-- Membership in an insertion. -/
theorem mem_insertByEase {a x : ProgressEntry} {l : List ProgressEntry} :
    a ∈ insertByEase x l ↔ a = x ∨ a ∈ l := by
  rw [(insertByEase_perm x l).mem_iff]
  simp

/-- Inserting into a list sorted by ease factor keeps it sorted. -/
theorem insertByEase_sorted (x : ProgressEntry) {l : List ProgressEntry}
    (h : l.Pairwise (fun a b => a.easeFactor ≤ b.easeFactor)) :
    (insertByEase x l).Pairwise (fun a b => a.easeFactor ≤ b.easeFactor) := by
  induction l with
  | nil => simp [insertByEase]
  | cons y ys ih =>
    rw [List.pairwise_cons] at h
    obtain ⟨hy, hys⟩ := h
    simp only [insertByEase]
    by_cases hc : y.easeFactor < x.easeFactor
    · rw [if_pos hc, List.pairwise_cons]
      refine ⟨?_, ih hys⟩
      intro z hz
      rcases mem_insertByEase.mp hz with hzx | hzys
      · rw [hzx]; exact le_of_lt hc
      · exact hy z hzys
    · rw [if_neg hc, List.pairwise_cons]
      refine ⟨?_, List.pairwise_cons.mpr ⟨hy, hys⟩⟩
      intro z hz
      rcases List.mem_cons.mp hz with hzy | hzys
      · rw [hzy]; exact le_of_not_lt hc
      · exact le_trans (le_of_not_lt hc) (hy z hzys)

/-- The output of `sortByEase` is non-decreasing in ease factor. -/
theorem sortByEase_sorted (l : List ProgressEntry) :
    (sortByEase l).Pairwise (fun a b => a.easeFactor ≤ b.easeFactor) := by
  induction l with
  | nil => simp [sortByEase]
  | cons x xs ih => exact insertByEase_sorted x ih

/-- Inserting an entry of key `c` prepends it to the key-`c` subsequence:
the inserted element passes only strictly smaller keys. -/
theorem filter_insertByEase_eq (c : ℚ) (x : ProgressEntry)
    (l : List ProgressEntry) (hx : x.easeFactor = c) :
    (insertByEase x l).filter (fun p => decide (p.easeFactor = c)) =
      x :: l.filter (fun p => decide (p.easeFactor = c)) := by
  induction l with
  | nil => simp [insertByEase, hx]
  | cons y ys ih =>
    simp only [insertByEase]
    by_cases hc : y.easeFactor < x.easeFactor
    · have hy : ¬ (y.easeFactor = c) := by rw [← hx]; exact ne_of_lt hc
      rw [if_pos hc]
      simp [List.filter_cons, hy, ih]
    · rw [if_neg hc]
      simp [List.filter_cons, hx]

/-- Inserting an entry whose key is not `c` leaves the key-`c` subsequence
unchanged. -/
theorem filter_insertByEase_ne (c : ℚ) (x : ProgressEntry)
    (l : List ProgressEntry) (hx : ¬ (x.easeFactor = c)) :
    (insertByEase x l).filter (fun p => decide (p.easeFactor = c)) =
      l.filter (fun p => decide (p.easeFactor = c)) := by
  induction l with
  | nil => simp [insertByEase, hx]
  | cons y ys ih =>
    simp only [insertByEase]
    by_cases hc : y.easeFactor < x.easeFactor
    · rw [if_pos hc]
      simp only [List.filter_cons, ih]
    · rw [if_neg hc]
      simp [List.filter_cons, hx]

/-- Stability of `sortByEase`: for every key value `c`, the subsequence of
entries with ease factor `c` is exactly the one of the input, in input
order — together with `sortByEase_perm` and `sortByEase_sorted` this pins
`sortByEase` down as the unique stable ascending sort, i.e. the behaviour
of `Array.prototype.sort` with the comparator of the source. -/
theorem sortByEase_stable (c : ℚ) (l : List ProgressEntry) :
    (sortByEase l).filter (fun p => decide (p.easeFactor = c)) =
      l.filter (fun p => decide (p.easeFactor = c)) := by
  induction l with
  | nil => rfl
  | cons x xs ih =>
    simp only [sortByEase]
    by_cases hx : x.easeFactor = c
    · rw [filter_insertByEase_eq c x (sortByEase xs) hx, ih]
      simp [List.filter_cons, hx]
    · rw [filter_insertByEase_ne c x (sortByEase xs) hx, ih]
      simp [List.filter_cons, hx]

end TimesTables
